import Mathlib

set_option maxRecDepth 10000

/-!
Verification of the warcpp single-header WARC parser (`include/warcpp/warcpp.hpp`).

The C++ source is shallowly embedded below.  Strings are modelled as `List Char`
(`Str`); a `std::istream` backed by an in-memory buffer (`std::istringstream`)
is modelled as the remaining character data together with the stream's `eofbit`
and `failbit` (`IStream`).  The stream operations used by the parser —
`std::getline(istream, string)`, `istream::read`, and
`istream::ignore(max, newline)` — are modelled faithfully to their C++
semantics, including the sentry behaviour: an unformatted input function on a
stream whose `eofbit` or `failbit` is set performs no input, sets `failbit`,
and (for `getline`) leaves the target string unchanged.

C++ exceptions escaping the two entry points are modelled as an explicit
`thrown` result: `Record::content_length` throws on an unparsable
`content-length` value, and `content_.resize` throws `std::length_error`
when the declared length exceeds `std::string::max_size()`.

The parser's loops (`detail::read_fields`'s line loop and
`read_subsequent_record`'s version-skipping loop) are embedded with an explicit
fuel parameter so that every definition is structurally recursive and
executable.  Both loops can genuinely fail to terminate in the C++ source: when
`std::getline`'s sentry fails, the line buffer keeps its previous value, so a
loop whose state is otherwise unchanged repeats forever.  Those situations are
detected explicitly and returned as the `diverge` result; the `noFuel` result
is the fuel-exhaustion fallback, proved unreachable for the fuel values the
top-level entry points pass.
-/

namespace warcpp

/-- Characters of a C++ `std::string`. -/
abbrev Str := List Char

/-- C `isspace` in the default locale: space, tab, newline, vertical tab,
form feed, carriage return. -/
def isspaceC (c : Char) : Bool :=
  c = ' ' || c = '\t' || c = '\n' || c = '\x0b' || c = '\x0c' || c = '\r'

/-- C `isdigit`. -/
def isdigitC (c : Char) : Bool :=
  '0' ≤ c && c ≤ '9'

/-- C `tolower` in the default locale: maps `A`-`Z` (codes 65-90) to
`a`-`z` (codes 97-122), leaves everything else unchanged. -/
def tolowerC (c : Char) : Char :=
  if 65 ≤ c.toNat && c.toNat ≤ 90 then Char.ofNat (c.toNat + 32) else c

/-- `detail::trim`: skips leading whitespace, then takes characters up to the
next whitespace character (`find_if_not` then `find_if` in the source). -/
def trim (s : Str) : Str :=
  (s.dropWhile fun c => isspaceC c).takeWhile fun c => !isspaceC c

/-- `detail::split`: splits at the first occurrence of the delimiter; the
delimiter itself is dropped.  When the delimiter is absent the second
component is empty. -/
def split (s : Str) (d : Char) : Str × Str :=
  (s.takeWhile (· ≠ d),
   match s.dropWhile (· ≠ d) with
   | [] => []
   | _ :: t => t)

/-- An in-memory input stream (`std::istringstream`): the characters not yet
consumed plus the stream's `eofbit` and `failbit`. -/
structure IStream where
  data : List Char
  eofbit : Bool
  failbit : Bool
deriving DecidableEq, Repr

/-- `istream::good()` restricted to the two bits we model. -/
def good (s : IStream) : Bool := !s.eofbit && !s.failbit

/-- `std::getline(in, line)`.  Takes the current value of the target string
because, when the sentry fails (a state bit is already set), the function
sets `failbit` and returns without erasing the target.  Otherwise the target
is erased and characters are extracted up to (and including, but not
storing) the next newline; reaching end of input sets `eofbit`, and
extracting no characters at all additionally sets `failbit`.  The returned
`Bool` is the truth value of the stream after the call. -/
def getline (s : IStream) (line : Str) : IStream × Str × Bool :=
  if !good s then ({ s with failbit := true }, line, false)
  else if s.data = [] then
    ({ s with eofbit := true, failbit := true }, [], false)
  else
    match s.data.dropWhile (· ≠ '\n') with
    | _ :: t => ({ s with data := t }, s.data.takeWhile (· ≠ '\n'), true)
    | [] => ({ s with data := [], eofbit := true }, s.data.takeWhile (· ≠ '\n'), true)

/-- `istream::read(buf, n)`: extracts exactly `n` characters; on a sentry
failure it performs no input and sets `failbit`; if fewer than `n`
characters remain it extracts what is left and sets `eofbit` and
`failbit`. -/
def readN (s : IStream) (n : Nat) : IStream × Str × Bool :=
  if !good s then ({ s with failbit := true }, [], false)
  else if n ≤ s.data.length then
    ({ s with data := s.data.drop n }, s.data.take n, true)
  else
    ({ s with data := [], eofbit := true, failbit := true }, s.data, false)

/-- `istream::ignore(numeric_limits<streamsize>::max(), newline)`: discards
characters up to and including the next newline; reaching end of input sets
`eofbit`; a sentry failure sets `failbit` and discards nothing. -/
def ignoreLine (s : IStream) : IStream :=
  if !good s then { s with failbit := true }
  else
    match s.data.dropWhile (· ≠ '\n') with
    | _ :: t => { s with data := t }
    | [] => { s with data := [], eofbit := true }

/-- `detail::Field_Map` (`std::unordered_map<std::string, std::string>`),
observed only through find and overwrite-insert, modelled as an association
list. -/
abbrev FieldMap := List (Str × Str)

/-- `unordered_map::find`, as used by `Record::has` and `Record::field`. -/
def fmFind (m : FieldMap) (k : Str) : Option Str :=
  match m with
  | [] => none
  | (k', v) :: t => if k' = k then some v else fmFind t k

/-- `fields[name] = value`: unique-key overwrite insertion. -/
def fmInsert (m : FieldMap) (k v : Str) : FieldMap :=
  (k, v) :: m.filter fun p => p.1 ≠ k

/-- `Record::Warc_Type`. -/
def Warc_Type : Str := "warc-type".data
/-- `Record::Warc_Target_Uri`. -/
def Warc_Target_Uri : Str := "warc-target-uri".data
/-- `Record::Warc_Trec_Id`. -/
def Warc_Trec_Id : Str := "warc-trec-id".data
/-- `Record::Content_Length`. -/
def Content_Length : Str := "content-length".data
/-- `Record::Response`. -/
def Response : Str := "response".data

/-- `warcpp::Record`: version token, field map, content bytes. -/
structure Record where
  version : Str
  fields : FieldMap
  content : Str
deriving DecidableEq, Repr

/-- `Record::has`: exact lookup of the given name among the stored keys. -/
def Record.has (r : Record) (name : Str) : Bool :=
  (fmFind r.fields name).isSome

/-- `Record::field`: exact lookup returning the stored value, if any. -/
def Record.field (r : Record) (name : Str) : Option Str :=
  fmFind r.fields name

/-- `Record::valid`: both mandatory fields are present. -/
def Record.valid (r : Record) : Bool :=
  r.has Warc_Type && r.has Content_Length

/-- Value of a digit string. -/
def digitsVal (ds : Str) : Nat :=
  ds.foldl (fun acc c => acc * 10 + (c.toNat - 48)) 0

/-- Conversion of an `int` value to `std::size_t`: reduction modulo
`2 ^ 64`, so a negative value wraps to a huge unsigned one. -/
def toSizeT (i : Int) : Nat :=
  (i.emod (2 ^ 64)).toNat

/-- The modelled value of `std::string::max_size()`.  The exact value is
implementation-defined in C++; this development fixes it to `2 ^ 62 - 1`,
the libstdc++ value on LP64 (`(PTRDIFF_MAX - 1) / 2`).  No theorem below
depends on the exact figure beyond its being smaller than `2 ^ 64 - 1`, so
that the `size_t` image of any negative `content-length` exceeds it on
every mainstream 64-bit implementation. -/
def string_max_size : Nat :=
  2 ^ 62 - 1

/-- `std::stoi`: skips leading whitespace, reads an optional sign and then a
non-empty run of decimal digits.  `Except.error ()` models a thrown
exception: `std::invalid_argument` when no digits can be read, or
`std::out_of_range` when the value does not fit in a 32-bit `int`. -/
def stoi (s : Str) : Except Unit Int :=
  let s1 := s.dropWhile fun c => isspaceC c
  let signAndRest : Int × Str :=
    match s1 with
    | '-' :: t => (-1, t)
    | '+' :: t => (1, t)
    | t => (1, t)
  let ds := signAndRest.2.takeWhile fun c => isdigitC c
  if ds = [] then Except.error ()
  else
    let v : Int := signAndRest.1 * (digitsVal ds : Int)
    if v < -(2 ^ 31) || 2 ^ 31 ≤ v then Except.error () else Except.ok v

/-- `Record::content_length`: looks up the `content-length` field
(`unordered_map::at` throws `std::out_of_range` when absent), parses it with
`std::stoi` (`Except.error ()` models the escaping exception: the caught
`std::invalid_argument` is re-thrown as `std::runtime_error`, and
`std::out_of_range` escapes uncaught), and converts the resulting `int` to
`std::size_t` (reduction modulo `2 ^ 64`). -/
def Record.content_length (r : Record) : Except Unit Nat :=
  match fmFind r.fields Content_Length with
  | none => Except.error ()
  | some v =>
    match stoi v with
    | Except.error _ => Except.error ()
    | Except.ok i => Except.ok (toSizeT i)

/-- The four alternatives of `warcpp::Error`. -/
inductive Err where
  | invalidVersion (version : Str)
  | invalidField (fieldLine : Str)
  | missingMandatoryFields
  | incompleteRecord
deriving DecidableEq, Repr

/-- Outcome of `detail::read_fields`: normal return without error, an
`Invalid_Field` return, or the two non-returning outcomes of the embedding
(`diverge` is a real infinite loop in the C++ source, `noFuel` is the fuel
fallback, proved unreachable for the fuel the callers pass). -/
inductive FieldsResult where
  | ok (s : IStream) (m : FieldMap)
  | invalid (s : IStream) (m : FieldMap) (line : Str)
  | diverge
  | noFuel
deriving DecidableEq, Repr

/-- `detail::read_version`: one `getline` on a freshly constructed empty
string; on a failed read, or when the trimmed line is shorter than 6
characters or does not start with the 5 characters `WARC/`, returns
`Invalid_Version` carrying the raw line; otherwise succeeds with the trimmed
line's characters after that 5-character start. -/
def read_version (s : IStream) : IStream × Except Str Str :=
  if !(getline s []).2.2 then ((getline s []).1, Except.error (getline s []).2.1)
  else if (trim (getline s []).2.1).length < 6
      || decide ((trim (getline s []).2.1).take 5 ≠ "WARC/".data) then
    ((getline s []).1, Except.error (getline s []).2.1)
  else ((getline s []).1, Except.ok ((trim (getline s []).2.1).drop 5))

/-- The line loop of `detail::read_fields`.  The C++ loop processes `line`
while it is neither empty nor a lone carriage return: it splits at the first
colon, returns `Invalid_Field` if either raw half is empty, otherwise stores
the lower-cased trimmed name with the trimmed value and reads the next line.
When the stream is not good at that `getline`, the sentry fails and leaves
`line` unchanged, so the C++ loop repeats the identical iteration forever:
that state is returned as `diverge`. -/
def read_fields_loop : Nat → IStream → Str → FieldMap → FieldsResult
  | 0, _, _, _ => FieldsResult.noFuel
  | Nat.succ fuel, s, line, m =>
    if line = [] || line = ['\r'] then FieldsResult.ok s m
    else
      let nv := split line ':'
      if nv.1 = [] || nv.2 = [] then FieldsResult.invalid s m line
      else
        let m' := fmInsert m ((trim nv.1).map tolowerC) (trim nv.2)
        if !good s then FieldsResult.diverge
        else read_fields_loop fuel (getline s line).1 (getline s line).2.1 m'

/-- `detail::read_fields`: an initial `getline` into a fresh empty string,
then the line loop.  The fuel `data.length + 2` is sufficient (each loop
iteration that recurses either consumes at least one character or reaches
the terminal empty-line state). -/
def read_fields (s : IStream) (m : FieldMap) : FieldsResult :=
  read_fields_loop ((getline s []).1.data.length + 2) (getline s []).1 (getline s []).2.1 m

/-- Outcome of `read_subsequent_record`'s version-skipping loop: a version
line was found, or `read_version` failed with `eof()` true (the loop returns
`Invalid_Version{}`), or one of the two non-returning outcomes (`diverge` is
a real infinite loop in the C++ source: with `failbit` set but `eofbit`
clear, `read_version` fails without consuming anything and `eof()` is false
forever). -/
inductive SkipRes where
  | found (s : IStream) (v : Str)
  | exhausted (s : IStream)
  | diverge
  | noFuel
deriving DecidableEq, Repr

/-- The version-skipping loop of `read_subsequent_record`: repeat
`detail::read_version` until it succeeds, returning `Invalid_Version{}` as
soon as it fails with `eofbit` set. -/
def skip_version : Nat → IStream → SkipRes
  | 0, _ => SkipRes.noFuel
  | Nat.succ fuel, s =>
    match (read_version s).2 with
    | Except.ok v => SkipRes.found (read_version s).1 v
    | Except.error _ =>
      if (read_version s).1.eofbit then SkipRes.exhausted (read_version s).1
      else if !good s then SkipRes.diverge
      else skip_version fuel (read_version s).1

/-- Outcome of `read_record` / `read_subsequent_record`.  `ok` and `err` are
the two alternatives of `warcpp::Result`; `thrown` models a C++ exception
escaping to the caller (`Record::content_length` throws on an unparsable
`content-length` value); `diverge` and `noFuel` are as in `FieldsResult`. -/
inductive RRes where
  | ok (r : Record)
  | err (e : Err)
  | thrown
  | diverge
  | noFuel
deriving DecidableEq, Repr

/-- The part of `read_record` / `read_subsequent_record` after the version
token has been obtained: parse the field block, check the mandatory fields,
and when the declared length is positive, resize the record's content
string to it (`content_.resize(length)` throws `std::length_error`, which
escapes the call, when the length exceeds `std::string::max_size()`) and
read that many body bytes; finally skip past two newlines. -/
def parse_after_version (ver : Str) (s : IStream) : RRes × IStream :=
  match read_fields s [] with
  | FieldsResult.noFuel => (RRes.noFuel, s)
  | FieldsResult.diverge => (RRes.diverge, s)
  | FieldsResult.invalid s' _ line => (RRes.err (Err.invalidField line), s')
  | FieldsResult.ok s' m =>
    let r : Record := { version := ver, fields := m, content := [] }
    if !r.valid then (RRes.err Err.missingMandatoryFields, s')
    else
      match r.content_length with
      | Except.error _ => (RRes.thrown, s')
      | Except.ok len =>
        if 0 < len then
          if string_max_size < len then (RRes.thrown, s')
          else if !(readN s' len).2.2 then (RRes.err Err.incompleteRecord, (readN s' len).1)
          else (RRes.ok { r with content := (readN s' len).2.1 },
                ignoreLine (ignoreLine (readN s' len).1))
        else (RRes.ok r, ignoreLine (ignoreLine s'))

/-- `warcpp::read_record`: strict parse from the current position. -/
def read_record (s : IStream) : RRes × IStream :=
  match (read_version s).2 with
  | Except.error line => (RRes.err (Err.invalidVersion line), (read_version s).1)
  | Except.ok ver => parse_after_version ver (read_version s).1

/-- `warcpp::read_subsequent_record`: skip lines until a version line is
found, then parse as `read_record` does.  The fuel `data.length + 1` bounds
the skipping loop (each iteration that repeats has consumed a newline). -/
def read_subsequent_record (s : IStream) : RRes × IStream :=
  match skip_version (s.data.length + 1) s with
  | SkipRes.noFuel => (RRes.noFuel, s)
  | SkipRes.diverge => (RRes.diverge, s)
  | SkipRes.exhausted s' => (RRes.err (Err.invalidVersion []), s')
  | SkipRes.found s' ver => parse_after_version ver s'

/-- The content of a successful result, if any. -/
def contentOf : RRes → Option Str
  | RRes.ok r => some r.content
  | _ => none

/-! Concrete test vectors. -/

/-- The input of the repository's `Skip corrupted record` test: a record
whose header block is cut short by a premature blank line (so the parsed
header lacks `content-length`), immediately followed by one well-formed
record with a 27-byte body. -/
def resilienceInput : Str :=
  ("WARC/0.18\n" ++
   "WARC-Type: response\n" ++
   "WARC-Target-URI: http://00000-nrt-realestate.homepagestartup.com/\n" ++
   "WARC-Warcinfo-ID: 993d3969-9643-4934-b1c6-68d4dbe55b83\n" ++
   "WARC-Date: 2009-03-65T08:43:19-0800\n" ++
   "\n" ++
   "WARC-Record-ID: <urn:uuid:67f7cabd-146c-41cf-bd01-04f5fa7d5229>\n" ++
   "WARC-TREC-ID: clueweb09-en0000-00-00000\n" ++
   "Content-Type: application/http;msgtype=response\n" ++
   "WARC-Identified-Payload-Type: \n" ++
   "Content-Length: 27\n" ++
   "\n" ++
   "HTTP_HEADER1\n" ++
   "\n" ++
   "HTTP_CONTENT1\n" ++
   "\n" ++
   "WARC/0.18\n" ++
   "WARC-Type: response\n" ++
   "WARC-Target-URI: http://00000-nrt-realestate.homepagestartup.com/\n" ++
   "WARC-Warcinfo-ID: 993d3969-9643-4934-b1c6-68d4dbe55b83\n" ++
   "WARC-Date: 2009-03-65T08:43:19-0800\n" ++
   "WARC-Record-ID: <urn:uuid:67f7cabd-146c-41cf-bd01-04f5fa7d5229>\n" ++
   "WARC-TREC-ID: clueweb09-en0000-00-00000\n" ++
   "Content-Type: application/http;msgtype=response\n" ++
   "WARC-Identified-Payload-Type: \n" ++
   "Content-Length: 27\n" ++
   "\n" ++
   "HTTP_HEADER2\n" ++
   "\n" ++
   "HTTP_CONTENT2").data

/-- A record whose header is well-formed but whose `content-length` value is
not numeric: `Record::content_length` throws. -/
def nonNumericInput : Str :=
  "WARC/1.0\nwarc-type: response\ncontent-length: abc\n\n".data

/-- A record whose header is well-formed and whose `content-length` value is
numeric but negative: `std::stoi` yields -1, the `size_t` conversion wraps
it to `2 ^ 64 - 1`, and `content_.resize` throws `std::length_error`. -/
def negativeLengthInput : Str :=
  "WARC/1.0\nwarc-type: x\ncontent-length: -1\n\nX".data

/-- A finite stream whose header's final field line sits at end of input
without a trailing newline: the field loop of `detail::read_fields` repeats
forever (`std::getline` under a failed sentry leaves the line unchanged). -/
def unterminatedFieldInput : Str :=
  "WARC/1.0\na: b".data

/-- A small well-formed record with a 3-byte body, followed by further
stream content. -/
def smallRecordInput : Str :=
  "WARC/1.0\nwarc-type: x\ncontent-length: 3\n\nabc\n\nREST".data

/-- The Record value parsed from `smallRecordInput`. -/
def smallRecordParsed : Record :=
  ⟨"1.0".data, [("content-length".data, "3".data), ("warc-type".data, "x".data)], "abc".data⟩

/-- The spec's idempotent-field-folding vector, newline-terminated. -/
def ctLFInput : Str :=
  "Content-Type  : application/warc-fields   \n\n".data

/-- The spec's idempotent-field-folding vector, CRLF-terminated. -/
def ctCRLFInput : Str :=
  "Content-Type  : application/warc-fields   \r\n\r\n".data

/-! Derived notions used to state the general theorems. -/

/-- A header line that `detail::read_fields` accepts and stores: it is not a
terminator, contains no newline (so one `getline` yields it exactly), and
both its raw halves around the first colon are non-empty. -/
def goodLine (h : Str) : Prop :=
  h ≠ [] ∧ h ≠ ['\r'] ∧ '\n' ∉ h ∧ (split h ':').1 ≠ [] ∧ (split h ':').2 ≠ []

/-- The field-map update performed for one accepted header line: store the
lower-cased trimmed name mapped to the trimmed value. -/
def insertLine (m : FieldMap) (h : Str) : FieldMap :=
  fmInsert m ((trim (split h ':').1).map tolowerC) (trim (split h ':').2)

/-- The field map accumulated over a list of header lines. -/
def buildMap (m : FieldMap) (hs : List Str) : FieldMap :=
  hs.foldl insertLine m

/-- Newline-terminated concatenation of header lines. -/
def joinLines (hs : List Str) : Str :=
  hs.foldr (fun h acc => h ++ '\n' :: acc) []

/-- A line that `detail::read_version` accepts: no embedded newline, and its
trimmed form is at least 6 characters long and starts with `WARC/`. -/
def versionOk (v : Str) : Prop :=
  '\n' ∉ v ∧ 6 ≤ (trim v).length ∧ (trim v).take 5 = "WARC/".data

/-! Helper lemmas about list scanning. -/

theorem takeWhile_ne_append (d : Char) (pre rest : Str) (h : d ∉ pre) :
    (pre ++ d :: rest).takeWhile (fun x => !decide (x = d)) = pre := by
  induction pre with
  | nil => simp [List.takeWhile]
  | cons a t ih =>
      have ha : a ≠ d := fun e => h (e ▸ List.mem_cons_self a t)
      have ht : d ∉ t := fun e => h (List.mem_cons_of_mem a e)
      simp [List.takeWhile_cons, ha, ih ht]

theorem dropWhile_ne_append (d : Char) (pre rest : Str) (h : d ∉ pre) :
    (pre ++ d :: rest).dropWhile (fun x => !decide (x = d)) = d :: rest := by
  induction pre with
  | nil => simp [List.dropWhile]
  | cons a t ih =>
      have ha : a ≠ d := fun e => h (e ▸ List.mem_cons_self a t)
      have ht : d ∉ t := fun e => h (List.mem_cons_of_mem a e)
      simp [List.dropWhile_cons, ha, ih ht]

theorem takeWhile_ne_of_not_mem (d : Char) (l : Str) (h : d ∉ l) :
    l.takeWhile (fun x => !decide (x = d)) = l := by
  induction l with
  | nil => rfl
  | cons a t ih =>
      have ha : a ≠ d := fun e => h (e ▸ List.mem_cons_self a t)
      have ht : d ∉ t := fun e => h (List.mem_cons_of_mem a e)
      simp [List.takeWhile_cons, ha, ih ht]

theorem dropWhile_ne_of_not_mem (d : Char) (l : Str) (h : d ∉ l) :
    l.dropWhile (fun x => !decide (x = d)) = [] := by
  induction l with
  | nil => rfl
  | cons a t ih =>
      have ha : a ≠ d := fun e => h (e ▸ List.mem_cons_self a t)
      have ht : d ∉ t := fun e => h (List.mem_cons_of_mem a e)
      simp [List.dropWhile_cons, ha, ih ht]

/-! Helper lemmas about the modelled stream operations on a fresh stream. -/

theorem getline_split (pre rest l : Str) (h : '\n' ∉ pre) :
    getline ⟨pre ++ '\n' :: rest, false, false⟩ l = (⟨rest, false, false⟩, pre, true) := by
  unfold getline good
  simp [dropWhile_ne_append '\n' pre rest h, takeWhile_ne_append '\n' pre rest h]

theorem getline_last (dat l : Str) (hne : dat ≠ []) (h : '\n' ∉ dat) :
    getline ⟨dat, false, false⟩ l = (⟨[], true, false⟩, dat, true) := by
  unfold getline good
  simp [hne, dropWhile_ne_of_not_mem '\n' dat h, takeWhile_ne_of_not_mem '\n' dat h]

theorem getline_empty (l : Str) :
    getline ⟨[], false, false⟩ l = (⟨[], true, true⟩, [], false) := rfl

theorem getline_newline (rest l : Str) :
    getline ⟨'\n' :: rest, false, false⟩ l = (⟨rest, false, false⟩, [], true) := by
  have := getline_split [] rest l (by simp)
  simpa using this

theorem ignoreLine_split (a rest : Str) (h : '\n' ∉ a) :
    ignoreLine ⟨a ++ '\n' :: rest, false, false⟩ = ⟨rest, false, false⟩ := by
  unfold ignoreLine good
  simp [dropWhile_ne_append '\n' a rest h]

theorem ignoreLine_last (a : Str) (h : '\n' ∉ a) :
    ignoreLine ⟨a, false, false⟩ = ⟨[], true, false⟩ := by
  unfold ignoreLine good
  simp [dropWhile_ne_of_not_mem '\n' a h]

theorem readN_le (dat : Str) (n : Nat) (h : n ≤ dat.length) :
    readN ⟨dat, false, false⟩ n = (⟨dat.drop n, false, false⟩, dat.take n, true) := by
  unfold readN good
  simp [h]

theorem joinLines_length (hs : List Str) : hs.length ≤ (joinLines hs).length := by
  induction hs with
  | nil => simp [joinLines]
  | cons h t ih =>
      have : joinLines (h :: t) = h ++ '\n' :: joinLines t := rfl
      rw [this]
      simp only [List.length_append, List.length_cons]
      omega

theorem read_fields_loop_block :
    ∀ (hs : List Str) (fuel : Nat) (line : Str) (m : FieldMap) (rest : Str),
      hs.length + 2 ≤ fuel → goodLine line → (∀ h ∈ hs, goodLine h) →
      read_fields_loop fuel ⟨joinLines hs ++ '\n' :: rest, false, false⟩ line m
        = FieldsResult.ok ⟨rest, false, false⟩ (buildMap (insertLine m line) hs) := by
  intro hs
  induction hs with
  | nil =>
      intro fuel line m rest hfuel hl _
      obtain ⟨f, rfl⟩ : ∃ f, fuel = f + 1 := ⟨fuel - 1, by omega⟩
      have hjoin : joinLines [] ++ '\n' :: rest = '\n' :: rest := rfl
      rw [hjoin]
      simp only [read_fields_loop]
      simp only [hl.1, hl.2.1, hl.2.2.2.1, hl.2.2.2.2, good, getline_newline]
      obtain ⟨f', rfl⟩ : ∃ f', f = f' + 1 := ⟨f - 1, by omega⟩
      simp [read_fields_loop, buildMap, insertLine]
  | cons h t ih =>
      intro fuel line m rest hfuel hl hhs
      obtain ⟨f, rfl⟩ : ∃ f, fuel = f + 1 := ⟨fuel - 1, by omega⟩
      have hjoin : joinLines (h :: t) ++ '\n' :: rest
          = h ++ '\n' :: (joinLines t ++ '\n' :: rest) := by
        show (h ++ '\n' :: joinLines t) ++ '\n' :: rest = _
        simp [List.append_assoc]
      rw [hjoin]
      simp only [read_fields_loop]
      simp only [hl.1, hl.2.1, hl.2.2.2.1, hl.2.2.2.2, good,
        getline_split h (joinLines t ++ '\n' :: rest) line (hhs h (List.mem_cons_self h t)).2.2.1]
      have hf : t.length + 2 ≤ f := by
        simp only [List.length_cons] at hfuel
        omega
      have hstep := ih f h (insertLine m line) rest hf
        (hhs h (List.mem_cons_self h t)) (fun x hx => hhs x (List.mem_cons_of_mem h hx))
      simp only [insertLine] at hstep
      simp [hstep, buildMap, insertLine]

theorem read_fields_block (hs : List Str) (rest : Str) (m : FieldMap)
    (hhs : ∀ h ∈ hs, goodLine h) :
    read_fields ⟨joinLines hs ++ '\n' :: rest, false, false⟩ m
      = FieldsResult.ok ⟨rest, false, false⟩ (buildMap m hs) := by
  cases hs with
  | nil =>
      have hjoin : joinLines [] ++ '\n' :: rest = '\n' :: rest := rfl
      unfold read_fields
      rw [hjoin]
      simp only [getline_newline]
      simp [read_fields_loop, buildMap]
  | cons h t =>
      have hjoin : joinLines (h :: t) ++ '\n' :: rest
          = h ++ '\n' :: (joinLines t ++ '\n' :: rest) := by
        show (h ++ '\n' :: joinLines t) ++ '\n' :: rest = _
        simp [List.append_assoc]
      unfold read_fields
      rw [hjoin]
      simp only [getline_split h (joinLines t ++ '\n' :: rest) []
        (hhs h (List.mem_cons_self h t)).2.2.1]
      have hfuel : t.length + 2 ≤ (joinLines t ++ '\n' :: rest).length + 2 := by
        have := joinLines_length t
        simp only [List.length_append, List.length_cons]
        omega
      have hstep := read_fields_loop_block t ((joinLines t ++ '\n' :: rest).length + 2) h m rest
        hfuel (hhs h (List.mem_cons_self h t)) (fun x hx => hhs x (List.mem_cons_of_mem h hx))
      simpa [buildMap] using hstep

theorem read_fields_invalid_line (m : FieldMap) (line rest : Str)
    (hnl : '\n' ∉ line) (hne : line ≠ []) (hncr : line ≠ ['\r'])
    (hbad : (split line ':').1 = [] ∨ (split line ':').2 = []) :
    read_fields ⟨line ++ '\n' :: rest, false, false⟩ m
      = FieldsResult.invalid ⟨rest, false, false⟩ m line := by
  unfold read_fields
  rw [getline_split line rest [] hnl]
  obtain ⟨f, hf⟩ : ∃ f, (⟨rest, false, false⟩ : IStream).data.length + 2 = f + 1 :=
    ⟨rest.length + 1, rfl⟩
  rw [hf]
  simp only [read_fields_loop]
  rw [if_neg (by simp [hne, hncr]), if_pos (by rcases hbad with hb | hb <;> simp [hb])]

theorem read_fields_accept_line (m : FieldMap) (line rest : Str)
    (hnl : '\n' ∉ line) (h1 : (split line ':').1 ≠ []) (h2 : (split line ':').2 ≠ []) :
    read_fields ⟨line ++ '\n' :: '\n' :: rest, false, false⟩ m
      = FieldsResult.ok ⟨rest, false, false⟩
          (fmInsert m ((trim (split line ':').1).map tolowerC) (trim (split line ':').2)) := by
  have hne : line ≠ [] := by
    intro e
    apply h1
    rw [e]
    rfl
  have hncr : line ≠ ['\r'] := by
    intro e
    apply h2
    rw [e]
    rfl
  have hb := read_fields_block [line] rest m (by
    intro h hmem
    rcases List.mem_cons.1 hmem with rfl | hx
    · exact ⟨hne, hncr, hnl, h1, h2⟩
    · exact absurd hx (List.not_mem_nil h))
  have hj : joinLines [line] ++ '\n' :: rest = line ++ '\n' :: '\n' :: rest := by
    show (line ++ ['\n']) ++ '\n' :: rest = _
    simp [List.append_assoc]
  rw [hj] at hb
  simpa [buildMap, insertLine] using hb

theorem read_version_split (v rest : Str) (hv : versionOk v) :
    read_version ⟨v ++ '\n' :: rest, false, false⟩
      = (⟨rest, false, false⟩, Except.ok ((trim v).drop 5)) := by
  unfold read_version
  rw [getline_split v rest [] hv.1]
  simp [hv.2.2, Nat.not_lt.mpr hv.2.1]

theorem readN_true_len (s : IStream) (n : Nat) (s' : IStream) (b : Str)
    (h : readN s n = (s', b, true)) : b.length = n := by
  unfold readN at h
  by_cases hg : (!good s) = true
  · simp [hg] at h
  · simp [hg] at h
    by_cases hn : n ≤ s.data.length
    · simp [hn] at h
      obtain ⟨-, hb⟩ := h
      subst hb
      simp [List.length_take, Nat.min_eq_left hn]
    · simp [hn] at h

theorem readN_len_of_true (s : IStream) (n : Nat) (h : (readN s n).2.2 = true) :
    (readN s n).2.1.length = n := by
  unfold readN at h ⊢
  by_cases hg : (!good s) = true
  · simp [hg] at h
  · simp only [hg, Bool.false_eq_true, if_false] at h ⊢
    by_cases hn : n ≤ s.data.length
    · simp [hn, List.length_take, Nat.min_eq_left hn]
    · simp [hn] at h

/-! Helper lemmas about lower-casing. -/

theorem toNat_ofNat_valid (n : Nat) (h : n.isValidChar) : (Char.ofNat n).toNat = n := by
  unfold Char.ofNat
  rw [dif_pos h]
  rfl

theorem tolowerC_toNat_of_upper (c : Char) (h1 : 65 ≤ c.toNat) (h2 : c.toNat ≤ 90) :
    (tolowerC c).toNat = c.toNat + 32 := by
  unfold tolowerC
  have hcond : (65 ≤ c.toNat && c.toNat ≤ 90) = true := by
    simp [h1, h2]
  rw [if_pos hcond]
  exact toNat_ofNat_valid (c.toNat + 32) (Or.inl (by omega))

theorem tolowerC_idem (c : Char) : tolowerC (tolowerC c) = tolowerC c := by
  by_cases hup : 65 ≤ c.toNat ∧ c.toNat ≤ 90
  · have ht := tolowerC_toNat_of_upper c hup.1 hup.2
    unfold tolowerC
    rw [if_neg (by simp [tolowerC] at ht ⊢; omega)]
  · have hcond : (65 ≤ c.toNat && c.toNat ≤ 90) = false := by
      by_cases h65 : 65 ≤ c.toNat
      · have h90 : ¬ c.toNat ≤ 90 := fun h90 => hup ⟨h65, h90⟩
        simp [h90]
      · simp [h65]
    unfold tolowerC
    rw [if_neg (by simp [hcond]), if_neg (by simp [hcond])]

theorem map_tolowerC_idem (l : Str) : (l.map tolowerC).map tolowerC = l.map tolowerC := by
  induction l with
  | nil => rfl
  | cons a t ih => simp [List.map_cons, tolowerC_idem, ih]

theorem tolowerC_ne_of_upper (c : Char) (h1 : 65 ≤ c.toNat) (h2 : c.toNat ≤ 90) :
    tolowerC c ≠ c := by
  intro e
  have := tolowerC_toNat_of_upper c h1 h2
  rw [e] at this
  omega

theorem map_eq_self_mem (f : Char → Char) (l : Str) (h : l.map f = l) :
    ∀ c ∈ l, f c = c := by
  induction l with
  | nil => intro c hc; cases hc
  | cons a t ih =>
      intro c hc
      rw [List.map_cons] at h
      have h1 : f a = a := (List.cons.injEq _ _ _ _ ▸ h).1
      have h2 : t.map f = t := (List.cons.injEq _ _ _ _ ▸ h).2
      rcases List.mem_cons.1 hc with rfl | hc
      · exact h1
      · exact ih h2 c hc

theorem fmInsert_lowered (m : FieldMap) (k v : Str)
    (hm : ∀ p ∈ m, p.1.map tolowerC = p.1) (hk : k.map tolowerC = k) :
    ∀ p ∈ fmInsert m k v, p.1.map tolowerC = p.1 := by
  intro p hp
  unfold fmInsert at hp
  rcases List.mem_cons.1 hp with rfl | hp
  · exact hk
  · exact hm p (List.mem_filter.1 hp).1

theorem fmFind_none_of_upper (m : FieldMap) (name : Str)
    (hm : ∀ p ∈ m, p.1.map tolowerC = p.1)
    (hup : ∃ c ∈ name, 65 ≤ c.toNat ∧ c.toNat ≤ 90) :
    fmFind m name = none := by
  induction m with
  | nil => rfl
  | cons p t ih =>
      obtain ⟨c, hc, hc1, hc2⟩ := hup
      have hne : p.1 ≠ name := by
        intro e
        have hlow : name.map tolowerC = name := e ▸ hm p (List.mem_cons_self p t)
        have := map_eq_self_mem tolowerC name hlow c hc
        exact tolowerC_ne_of_upper c hc1 hc2 this
      show fmFind (p :: t) name = none
      unfold fmFind
      rcases p with ⟨k, v⟩
      rw [if_neg hne]
      exact ih (fun q hq => hm q (List.mem_cons_of_mem _ hq))

theorem content_length_congr (r r' : Record) (h : r.fields = r'.fields) :
    r.content_length = r'.content_length := by
  unfold Record.content_length
  rw [h]

/-! Helper lemmas for the version-skipping loop. -/

theorem count_takeWhile_ne (d : Char) (l : Str) :
    (l.takeWhile (fun x => !decide (x = d))).count d = 0 := by
  induction l with
  | nil => rfl
  | cons a t ih =>
      by_cases ha : a = d
      · simp [List.takeWhile_cons, ha]
      · simp [List.takeWhile_cons, ha, List.count_cons, ih]

theorem dropWhile_ne_head (d : Char) :
    ∀ (l : Str) (c : Char) (t : Str),
      l.dropWhile (fun x => !decide (x = d)) = c :: t → c = d := by
  intro l
  induction l with
  | nil => intro c t h; cases h
  | cons a l ih =>
      intro c t h
      by_cases ha : a = d
      · rw [List.dropWhile_cons] at h
        simp only [ha] at h
        simp at h
        simp_all
      · rw [List.dropWhile_cons] at h
        simp only [ha] at h
        simp at h
        exact ih c t h

theorem read_version_stream (s : IStream) : (read_version s).1 = (getline s []).1 := by
  unfold read_version
  split
  · rfl
  split
  · rfl
  · rfl

theorem getline_eof_preserved (s : IStream) (l : Str) (he : s.eofbit = true) :
    (getline s l).1.eofbit = true := by
  unfold getline
  rw [if_pos (by simp [good, he])]
  simpa using he

theorem getline_consume (s : IStream) (l : Str) (hg : good s = true)
    (he : (getline s l).1.eofbit = false) :
    (getline s l).1.failbit = s.failbit ∧
    s.data.count '\n' = (getline s l).1.data.count '\n' + 1 := by
  unfold getline at he ⊢
  rw [if_neg (by simp [hg])] at he ⊢
  by_cases hd : s.data = []
  · rw [if_pos hd] at he
    simp at he
  · rw [if_neg hd] at he ⊢
    cases hdw : s.data.dropWhile (· ≠ '\n') with
    | nil =>
        simp only [hdw] at he
        simp at he
    | cons c t =>
        simp only [hdw] at he ⊢
        refine ⟨by simp, ?_⟩
        have hdw' := hdw
        simp only [ne_eq, decide_not] at hdw'
        have hc : c = '\n' := dropWhile_ne_head '\n' s.data c t hdw'
        have hsplit : s.data.takeWhile (fun x => !decide (x = '\n')) ++ c :: t = s.data := by
          conv_rhs =>
            rw [← List.takeWhile_append_dropWhile (p := fun x => !decide (x = '\n'))
                  (l := s.data)]
          rw [hdw']
        conv_lhs => rw [← hsplit]
        rw [List.count_append, count_takeWhile_ne, hc, List.count_cons_self]
        omega

theorem skip_version_term :
    ∀ (fuel : Nat) (s : IStream), s.data.count '\n' < fuel → s.failbit = false →
      skip_version fuel s ≠ SkipRes.noFuel ∧ skip_version fuel s ≠ SkipRes.diverge := by
  intro fuel
  induction fuel with
  | zero =>
      intro s hc _
      exact absurd hc (by omega)
  | succ f ih =>
      intro s hc hfb
      simp only [skip_version]
      cases hv : (read_version s).2 with
      | ok v =>
          simp only [hv]
          simp
      | error line =>
          simp only [hv]
          by_cases he : (read_version s).1.eofbit = true
          · simp [he]
          · rw [if_neg he]
            have hgood : good s = true := by
              cases hse : s.eofbit with
              | false => simp [good, hse, hfb]
              | true =>
                  exfalso
                  apply he
                  rw [read_version_stream]
                  exact getline_eof_preserved s [] hse
            rw [if_neg (by simp [hgood])]
            have heof : (getline s []).1.eofbit = false := by
              rw [read_version_stream] at he
              cases hx : (getline s []).1.eofbit
              · rfl
              · exact absurd hx he
            obtain ⟨hfail, hcount⟩ := getline_consume s [] hgood heof
            have h1 : (read_version s).1.data.count '\n' < f := by
              rw [read_version_stream]
              omega
            have h2 : (read_version s).1.failbit = false := by
              rw [read_version_stream, hfail]
              exact hfb
            exact ih (read_version s).1 h1 h2

/-! Inversion lemmas for the parsing pipeline. -/

theorem read_fields_loop_keys :
    ∀ (fuel : Nat) (s : IStream) (line : Str) (m : FieldMap) (s' : IStream) (m' : FieldMap),
      read_fields_loop fuel s line m = FieldsResult.ok s' m' →
      (∀ p ∈ m, p.1.map tolowerC = p.1) → ∀ p ∈ m', p.1.map tolowerC = p.1 := by
  intro fuel
  induction fuel with
  | zero =>
      intro s line m s' m' h hm
      simp [read_fields_loop] at h
  | succ f ih =>
      intro s line m s' m' h hm
      simp only [read_fields_loop] at h
      split at h
      · injection h with e1 e2
        subst e1
        subst e2
        exact hm
      · split at h
        · simp at h
        · split at h
          · simp at h
          · exact ih _ _ _ _ _ h (fmInsert_lowered _ _ _ hm (map_tolowerC_idem _))

theorem read_fields_keys (s s' : IStream) (m' : FieldMap)
    (h : read_fields s [] = FieldsResult.ok s' m') :
    ∀ p ∈ m', p.1.map tolowerC = p.1 := by
  unfold read_fields at h
  exact read_fields_loop_keys _ _ _ _ _ _ h (fun p hp => absurd hp (List.not_mem_nil p))

theorem parse_ok_inv (ver : Str) (s s' : IStream) (r : Record)
    (h : parse_after_version ver s = (RRes.ok r, s')) :
    ∃ s1 m, read_fields s [] = FieldsResult.ok s1 m ∧ r.fields = m ∧ r.version = ver ∧
      r.content_length = Except.ok r.content.length := by
  simp only [parse_after_version] at h
  split at h
  · simp at h
  · simp at h
  · simp at h
  rename_i s1 m hf
  by_cases hv : Record.valid ⟨ver, m, []⟩ = true
  · rw [if_neg (by simp [hv])] at h
    split at h
    · simp at h
    rename_i len hcl
    by_cases hlen : 0 < len
    · rw [if_pos hlen] at h
      by_cases hms : string_max_size < len
      · rw [if_pos hms] at h; simp at h
      rw [if_neg hms] at h
      by_cases hrn : (!(readN s1 len).2.2) = true
      · rw [if_pos hrn] at h; simp at h
      · rw [if_neg hrn] at h
        have hr : RRes.ok ⟨ver, m, (readN s1 len).2.1⟩ = RRes.ok r := congrArg Prod.fst h
        injection hr with hr
        refine ⟨s1, m, hf, by rw [← hr], by rw [← hr], ?_⟩
        have hcc : r.content_length = Record.content_length ⟨ver, m, []⟩ :=
          content_length_congr _ _ (by rw [← hr])
        have htrue : (readN s1 len).2.2 = true := by
          revert hrn
          cases (readN s1 len).2.2 <;> simp
        have hlenb : r.content.length = len := by
          rw [← hr]
          exact readN_len_of_true s1 len htrue
        rw [hcc, hcl, hlenb]
    · rw [if_neg hlen] at h
      have hr : RRes.ok ⟨ver, m, []⟩ = RRes.ok r := congrArg Prod.fst h
      injection hr with hr
      have hlen0 : len = 0 := by omega
      refine ⟨s1, m, hf, by rw [← hr], by rw [← hr], ?_⟩
      have hcc : r.content_length = Record.content_length ⟨ver, m, []⟩ :=
        content_length_congr _ _ (by rw [← hr])
      have hlenb : r.content.length = 0 := by rw [← hr]; rfl
      rw [hcc, hcl, hlenb, hlen0]
  · rw [if_pos (by simp [Bool.not_eq_true] at hv ⊢; exact hv)] at h
    simp at h

theorem parse_thrown_inv (ver : Str) (s s' : IStream)
    (h : parse_after_version ver s = (RRes.thrown, s')) :
    ∃ m v, read_fields s [] = FieldsResult.ok s' m ∧
      fmFind m Warc_Type ≠ none ∧ fmFind m Content_Length = some v ∧
      (stoi v = Except.error () ∨
        ∃ i, stoi v = Except.ok i ∧ string_max_size < toSizeT i) := by
  simp only [parse_after_version] at h
  split at h
  · simp at h
  · simp at h
  · simp at h
  rename_i s1 m hf
  by_cases hv : Record.valid ⟨ver, m, []⟩ = true
  · rw [if_neg (by simp [hv])] at h
    have hwt : (fmFind m Warc_Type).isSome = true ∧
        (fmFind m Content_Length).isSome = true := by
      have hv' := hv
      unfold Record.valid Record.has at hv'
      exact ⟨(Bool.and_eq_true_iff.1 hv').1, (Bool.and_eq_true_iff.1 hv').2⟩
    split at h
    case _ e hcl =>
      have hs' : s1 = s' := congrArg Prod.snd h
      subst hs'
      cases hcf : fmFind m Content_Length with
      | none => rw [hcf] at hwt; simp at hwt
      | some v =>
          refine ⟨m, v, hf, ?_, hcf, ?_⟩
          · intro hnone
            rw [hnone] at hwt
            simp at hwt
          · unfold Record.content_length at hcl
            simp only [hcf] at hcl
            cases hst : stoi v with
            | error u => cases u; exact Or.inl rfl
            | ok i =>
                simp only [hst] at hcl
                exact Except.noConfusion hcl
    case _ len hcl =>
      by_cases hlen : 0 < len
      · rw [if_pos hlen] at h
        by_cases hms : string_max_size < len
        · rw [if_pos hms] at h
          have hs' : s1 = s' := congrArg Prod.snd h
          subst hs'
          cases hcf : fmFind m Content_Length with
          | none => rw [hcf] at hwt; simp at hwt
          | some v =>
              refine ⟨m, v, hf, ?_, hcf, ?_⟩
              · intro hnone
                rw [hnone] at hwt
                simp at hwt
              · unfold Record.content_length at hcl
                simp only [hcf] at hcl
                cases hst : stoi v with
                | error u =>
                    simp only [hst] at hcl
                    exact Except.noConfusion hcl
                | ok i =>
                    simp only [hst] at hcl
                    have hlen' : toSizeT i = len := by
                      injection hcl
                    exact Or.inr ⟨i, rfl, hlen' ▸ hms⟩
        · rw [if_neg hms] at h
          by_cases hrn : (!(readN s1 len).2.2) = true
          · rw [if_pos hrn] at h; simp at h
          · rw [if_neg hrn] at h; simp at h
      · rw [if_neg hlen] at h; simp at h
  · rw [if_pos (by simp [Bool.not_eq_true] at hv ⊢; exact hv)] at h
    simp at h

theorem read_record_inv (s : IStream) (res : RRes) (s' : IStream)
    (h : read_record s = (res, s'))
    (hnv : ∀ line, res ≠ RRes.err (Err.invalidVersion line)) :
    ∃ ver, parse_after_version ver (read_version s).1 = (res, s') := by
  unfold read_record at h
  cases hv : (read_version s).2 with
  | error line => rw [hv] at h; cases h; exact absurd rfl (hnv line)
  | ok ver => rw [hv] at h; exact ⟨ver, h⟩

theorem read_subsequent_inv (s : IStream) (res : RRes) (s' : IStream)
    (h : read_subsequent_record s = (res, s'))
    (hnv : res ≠ RRes.err (Err.invalidVersion []))
    (hnf : res ≠ RRes.noFuel) (hdv : res ≠ RRes.diverge) :
    ∃ ver s1, parse_after_version ver s1 = (res, s') := by
  unfold read_subsequent_record at h
  cases hs : skip_version (s.data.length + 1) s with
  | noFuel => rw [hs] at h; cases h; exact absurd rfl hnf
  | diverge => rw [hs] at h; cases h; exact absurd rfl hdv
  | exhausted s1 => rw [hs] at h; cases h; exact absurd rfl hnv
  | found s1 ver => rw [hs] at h; exact ⟨ver, s1, h⟩

/-! The claims. -/

/-- Claim C1, counterexample: `read_record` does not return every parsing
failure as a value of the four-kind `Error` union.  On a stream whose
record header is well-formed but declares `content-length: abc`,
`Record::content_length` calls `std::stoi`, catches the
`std::invalid_argument` and re-throws a `std::runtime_error` that escapes
`read_record` to the caller (modelled as `RRes.thrown`) — in particular the
claim fails for a present but non-numeric `content-length`.  On
`content-length: -1` the value is numeric, but its `size_t` image
`2 ^ 64 - 1` exceeds `std::string::max_size()` and `content_.resize`
throws `std::length_error`, which also escapes. -/
theorem claim_C1_counterexample :
    (read_record ⟨nonNumericInput, false, false⟩).1 = RRes.thrown ∧
    (read_record ⟨negativeLengthInput, false, false⟩).1 = RRes.thrown :=
  ⟨rfl, rfl⟩

/-- Claim C1, amended: every failure of `read_record` and
`read_subsequent_record` is returned as a value of the closed four-kind
`Error` union, except that, when the parsed header contains both mandatory
fields, a thrown exception propagates to the caller in exactly two
situations: the `content-length` value fails `std::stoi` integer parsing
(`std::runtime_error` / `std::out_of_range`), or it parses to an integer
whose `size_t` image exceeds `std::string::max_size()` so that
`content_.resize` throws `std::length_error`.  Formally: whenever either
entry point produces the thrown outcome, the field block had parsed
successfully, `warc-type` is present, and `content-length` is present with
a value on which `stoi` throws or whose parsed `size_t` value exceeds the
string's maximum size. -/
theorem claim_C1 (s s' : IStream) (res : RRes)
    (h : read_record s = (res, s') ∨ read_subsequent_record s = (res, s'))
    (ht : res = RRes.thrown) :
    ∃ (s1 : IStream) (ver : Str) (m : FieldMap) (v : Str),
      parse_after_version ver s1 = (RRes.thrown, s') ∧
      read_fields s1 [] = FieldsResult.ok s' m ∧
      fmFind m Warc_Type ≠ none ∧ fmFind m Content_Length = some v ∧
      (stoi v = Except.error () ∨
        ∃ i, stoi v = Except.ok i ∧ string_max_size < toSizeT i) := by
  subst ht
  rcases h with h | h
  · obtain ⟨ver, hp⟩ := read_record_inv s _ s' h (fun line => by simp)
    obtain ⟨m, v, h1, h2, h3, h4⟩ := parse_thrown_inv ver _ s' hp
    exact ⟨(read_version s).1, ver, m, v, hp, h1, h2, h3, h4⟩
  · obtain ⟨ver, s1, hp⟩ := read_subsequent_inv s _ s' h (by simp) (by simp) (by simp)
    obtain ⟨m, v, h1, h2, h3, h4⟩ := parse_thrown_inv ver s1 s' hp
    exact ⟨s1, ver, m, v, hp, h1, h2, h3, h4⟩

/-- Claim C1, witness: the amended theorem applied to the concrete
negative-`content-length` stream, on which the resize path throws. -/
theorem claim_C1_witness :
    ∃ (s1 : IStream) (ver : Str) (m : FieldMap) (v : Str),
      parse_after_version ver s1 = (RRes.thrown, ⟨['X'], false, false⟩) ∧
      read_fields s1 [] = FieldsResult.ok ⟨['X'], false, false⟩ m ∧
      fmFind m Warc_Type ≠ none ∧ fmFind m Content_Length = some v ∧
      (stoi v = Except.error () ∨
        ∃ i, stoi v = Except.ok i ∧ string_max_size < toSizeT i) :=
  claim_C1 ⟨negativeLengthInput, false, false⟩ ⟨['X'], false, false⟩ RRes.thrown
    (Or.inl (by rfl)) rfl

/-- Claim C2: in strict mode, `detail::read_version` reads exactly one line
from the stream (the stream after the call is the stream after one
`getline`, in success and failure alike, so no additional lines are
consumed); when the read succeeds and the trimmed line is at least 6
characters long and starts with `WARC/`, it succeeds with the trimmed
line's characters after that prefix as the version token, and otherwise it
fails carrying the raw untrimmed line; `read_record` returns that failure
as `Invalid_Version` with the same payload and the same stream
position. -/
theorem claim_C2 (s : IStream) :
    (read_version s).1 = (getline s []).1 ∧
    (read_version s).2 =
      (if (getline s []).2.2 = true ∧ 6 ≤ (trim (getline s []).2.1).length
          ∧ (trim (getline s []).2.1).take 5 = "WARC/".data
       then Except.ok ((trim (getline s []).2.1).drop 5)
       else Except.error (getline s []).2.1) ∧
    (∀ line, (read_version s).2 = Except.error line →
      read_record s = (RRes.err (Err.invalidVersion line), (getline s []).1)) := by
  refine ⟨read_version_stream s, ?_, ?_⟩
  · unfold read_version
    by_cases hok : (getline s []).2.2 = true
    · rw [if_neg (by simp [hok])]
      by_cases h6 : 6 ≤ (trim (getline s []).2.1).length
      · by_cases h5 : (trim (getline s []).2.1).take 5 = "WARC/".data
        · rw [if_neg (by simp [Nat.not_lt.mpr h6, h5]), if_pos ⟨hok, h6, h5⟩]
        · rw [if_pos (by simp [h5]), if_neg (fun hcon => h5 hcon.2.2)]
      · rw [if_pos (by simp [Nat.lt_of_not_le h6]), if_neg (fun hcon => h6 hcon.2.1)]
    · have hokf : (getline s []).2.2 = false := by
        cases hx : (getline s []).2.2
        · rfl
        · exact absurd hx hok
      rw [if_pos (by simp [hokf]), if_neg (fun hcon => hok hcon.1)]
  · intro line hline
    unfold read_record
    simp only [hline, read_version_stream]

/-- Claim C2, witness: the strict version parse of `INVALID_STRING` fails
with `Invalid_Version` carrying that raw line, consuming only that one
line. -/
theorem claim_C2_witness :
    read_record ⟨"INVALID_STRING".data, false, false⟩
      = (RRes.err (Err.invalidVersion "INVALID_STRING".data), ⟨[], true, false⟩) :=
  (claim_C2 ⟨"INVALID_STRING".data, false, false⟩).2.2 "INVALID_STRING".data (by rfl)

/-- Claim C3, counterexample: the header line `a: ` (letter, colon, one
space) has a non-empty trimmed name but an empty trimmed value, so by the
claim `detail::read_fields` should fail with `Invalid_Field`; instead the
code checks the two halves around the colon before trimming, accepts the
line, and stores the field `a` with an empty value. -/
theorem claim_C3_counterexample :
    read_fields ⟨"a: \n\nX".data, false, false⟩ []
      = FieldsResult.ok ⟨"X".data, false, false⟩ [(['a'], [])] := rfl

/-- Claim C3, amended: for every header line before the terminating blank
line, the field-block parser fails immediately with `Invalid_Field`
carrying that raw line exactly when the raw (untrimmed) part before the
first colon or the raw part after it is empty (a line with no colon has an
empty raw value part); when both raw halves are non-empty the line is
accepted and the lower-cased trimmed name is stored with the trimmed
value — which may be empty after trimming. -/
theorem claim_C3 (m : FieldMap) (line rest : Str)
    (hnl : '\n' ∉ line) (hne : line ≠ []) (hncr : line ≠ ['\r']) :
    (((split line ':').1 = [] ∨ (split line ':').2 = []) →
       read_fields ⟨line ++ '\n' :: '\n' :: rest, false, false⟩ m
         = FieldsResult.invalid ⟨'\n' :: rest, false, false⟩ m line) ∧
    ((split line ':').1 ≠ [] → (split line ':').2 ≠ [] →
       read_fields ⟨line ++ '\n' :: '\n' :: rest, false, false⟩ m
         = FieldsResult.ok ⟨rest, false, false⟩
             (fmInsert m ((trim (split line ':').1).map tolowerC)
               (trim (split line ':').2))) :=
  ⟨fun hbad => read_fields_invalid_line m line ('\n' :: rest) hnl hne hncr hbad,
   fun h1 h2 => read_fields_accept_line m line rest hnl h1 h2⟩

/-- Claim C3, witness: the amended theorem applied to the rejected line
`invalid:` and to the accepted line `n: v`. -/
theorem claim_C3_witness :
    read_fields ⟨"invalid:\n\nREM".data, false, false⟩ []
      = FieldsResult.invalid ⟨'\n' :: "REM".data, false, false⟩ [] "invalid:".data ∧
    read_fields ⟨"n: v\n\nREM".data, false, false⟩ []
      = FieldsResult.ok ⟨"REM".data, false, false⟩
          (fmInsert [] ((trim (split "n: v".data ':').1).map tolowerC)
            (trim (split "n: v".data ':').2)) :=
  ⟨(claim_C3 [] "invalid:".data "REM".data (by decide) (by decide) (by decide)).1
      (by decide),
   (claim_C3 [] "n: v".data "REM".data (by decide) (by decide) (by decide)).2
      (by decide) (by decide)⟩

/-- Claim C4: whenever `read_record` or `read_subsequent_record` returns a
`Record` as a success value, parsing the record's stored `content-length`
field yields exactly the length of its content byte sequence — a success
value never has a short body. -/
theorem claim_C4 (s s' : IStream) (r : Record)
    (h : read_record s = (RRes.ok r, s') ∨ read_subsequent_record s = (RRes.ok r, s')) :
    r.content_length = Except.ok r.content.length := by
  rcases h with h | h
  · obtain ⟨ver, hp⟩ := read_record_inv s _ s' h (fun line => by simp)
    obtain ⟨s1, m, -, -, -, hcl⟩ := parse_ok_inv ver _ s' r hp
    exact hcl
  · obtain ⟨ver, s1, hp⟩ := read_subsequent_inv s _ s' h (by simp) (by simp) (by simp)
    obtain ⟨s2, m, -, -, -, hcl⟩ := parse_ok_inv ver s1 s' r hp
    exact hcl

/-- Claim C4, witness: the theorem applied to a concrete record with a
3-byte body and `content-length: 3`. -/
theorem claim_C4_witness :
    smallRecordParsed.content_length = Except.ok smallRecordParsed.content.length :=
  claim_C4 ⟨smallRecordInput, false, false⟩ ⟨"REST".data, false, false⟩ smallRecordParsed
    (Or.inl (by rfl))

/-- Claim C5: on the concrete stream holding a record whose header is cut
short by a premature blank line (so a mandatory field is missing) followed
by one well-formed record, `read_record` returns
`Missing_Mandatory_Fields`; a subsequent `read_subsequent_record` on the
same stream succeeds with content exactly the well-formed record's 27-byte
body; one further `read_subsequent_record` returns `Invalid_Version` with
an empty payload (stream exhausted). -/
theorem claim_C5 :
    (read_record ⟨resilienceInput, false, false⟩).1 = RRes.err Err.missingMandatoryFields ∧
    contentOf (read_subsequent_record (read_record ⟨resilienceInput, false, false⟩).2).1
      = some "HTTP_HEADER2\n\nHTTP_CONTENT2".data ∧
    (read_subsequent_record
        (read_subsequent_record (read_record ⟨resilienceInput, false, false⟩).2).2).1
      = RRes.err (Err.invalidVersion []) :=
  ⟨rfl, rfl, rfl⟩

/-- Claim C6: on a stream made of an accepted version line, a header block
of accepted field lines whose resulting field map lacks `warc-type` or
lacks `content-length`, the terminating blank line, and arbitrary
remaining bytes, both `read_record` and `read_subsequent_record` return
`Missing_Mandatory_Fields` and leave the stream positioned exactly after
the header's terminating blank line: the remaining bytes are untouched and
no body byte is consumed. -/
theorem claim_C6 (v : Str) (hs : List Str) (rest : Str)
    (hv : versionOk v) (hhs : ∀ h ∈ hs, goodLine h)
    (hmiss : fmFind (buildMap [] hs) Warc_Type = none
      ∨ fmFind (buildMap [] hs) Content_Length = none) :
    read_record ⟨v ++ '\n' :: (joinLines hs ++ '\n' :: rest), false, false⟩
      = (RRes.err Err.missingMandatoryFields, ⟨rest, false, false⟩) ∧
    read_subsequent_record ⟨v ++ '\n' :: (joinLines hs ++ '\n' :: rest), false, false⟩
      = (RRes.err Err.missingMandatoryFields, ⟨rest, false, false⟩) := by
  have hver := read_version_split v (joinLines hs ++ '\n' :: rest) hv
  have hfields := read_fields_block hs rest [] hhs
  have hparse : parse_after_version ((trim v).drop 5)
      ⟨joinLines hs ++ '\n' :: rest, false, false⟩
      = (RRes.err Err.missingMandatoryFields, ⟨rest, false, false⟩) := by
    simp only [parse_after_version, hfields]
    rw [if_pos (by rcases hmiss with hm | hm <;> simp [Record.valid, Record.has, hm])]
  constructor
  · unfold read_record
    simp only [hver]
    exact hparse
  · unfold read_subsequent_record
    simp only [skip_version, hver]
    exact hparse

/-- Claim C6, witness: a record whose header holds only `warc-type` (no
`content-length`), followed by the bytes `BODY` which stay unread. -/
theorem claim_C6_witness :
    read_record ⟨"WARC/1.0".data ++ '\n' ::
        (joinLines ["warc-type: x".data] ++ '\n' :: "BODY".data), false, false⟩
      = (RRes.err Err.missingMandatoryFields, ⟨"BODY".data, false, false⟩) :=
  (claim_C6 "WARC/1.0".data ["warc-type: x".data] "BODY".data
    ⟨by decide, by decide, by decide⟩
    (by
      intro h hmem
      rcases List.mem_cons.1 hmem with rfl | hx
      · exact ⟨by decide, by decide, by decide, by decide, by decide⟩
      · exact absurd hx (List.not_mem_nil h))
    (Or.inr (by decide))).1

/-- Claim C7: a record whose header is valid and declares a
`content-length` parsing to 0 is returned by `read_record` as a success
with empty content; no body byte is read, and the two terminator-skip
steps still occur, each discarding bytes up to and including the next
newline, so the stream ends up past the two trailing terminator lines. -/
theorem claim_C7 (v cl : Str) (hs : List Str) (a b c : Str)
    (hv : versionOk v) (hhs : ∀ h ∈ hs, goodLine h)
    (hwt : fmFind (buildMap [] hs) Warc_Type ≠ none)
    (hcl : fmFind (buildMap [] hs) Content_Length = some cl)
    (h0 : stoi cl = Except.ok 0)
    (ha : '\n' ∉ a) (hb : '\n' ∉ b) :
    read_record ⟨v ++ '\n' ::
        (joinLines hs ++ '\n' :: (a ++ '\n' :: (b ++ '\n' :: c))), false, false⟩
      = (RRes.ok ⟨(trim v).drop 5, buildMap [] hs, []⟩, ⟨c, false, false⟩) := by
  have hver := read_version_split v (joinLines hs ++ '\n' :: (a ++ '\n' :: (b ++ '\n' :: c))) hv
  have hfields := read_fields_block hs (a ++ '\n' :: (b ++ '\n' :: c)) [] hhs
  unfold read_record
  simp only [hver]
  simp only [parse_after_version, hfields]
  have hvalid : Record.valid ⟨(trim v).drop 5, buildMap [] hs, []⟩ = true := by
    unfold Record.valid Record.has
    rw [hcl]
    cases hfind : fmFind (buildMap [] hs) Warc_Type with
    | none => exact absurd hfind hwt
    | some w => rfl
  rw [if_neg (by simp [hvalid])]
  have hclr : Record.content_length ⟨(trim v).drop 5, buildMap [] hs, []⟩
      = Except.ok 0 := by
    unfold Record.content_length
    simp only [hcl, h0]
    rfl
  simp only [hclr]
  rw [if_neg (by omega)]
  rw [ignoreLine_split a (b ++ '\n' :: c) ha, ignoreLine_split b c hb]

/-- Claim C7, witness: a header with `warc-type: x` and
`content-length: 0`, followed by two empty terminator lines and the bytes
`NEXT`. -/
theorem claim_C7_witness :
    read_record ⟨"WARC/1.0".data ++ '\n' ::
        (joinLines ["warc-type: x".data, "content-length: 0".data] ++ '\n' ::
          ([] ++ '\n' :: ([] ++ '\n' :: "NEXT".data))), false, false⟩
      = (RRes.ok ⟨(trim "WARC/1.0".data).drop 5,
          buildMap [] ["warc-type: x".data, "content-length: 0".data], []⟩,
         ⟨"NEXT".data, false, false⟩) :=
  claim_C7 "WARC/1.0".data "0".data ["warc-type: x".data, "content-length: 0".data]
    [] [] "NEXT".data
    ⟨by decide, by decide, by decide⟩
    (by
      intro h hmem
      rcases List.mem_cons.1 hmem with rfl | hx
      · exact ⟨by decide, by decide, by decide, by decide, by decide⟩
      rcases List.mem_cons.1 hx with rfl | hx'
      · exact ⟨by decide, by decide, by decide, by decide, by decide⟩
      · exact absurd hx' (List.not_mem_nil h))
    (by decide) (by decide) (by rfl) (by decide) (by decide)

/-- Claim C8: every accepted field line is stored with the trimmed,
lower-cased name as key and the trimmed value as value; concretely,
parsing the header line `Content-Type  : application/warc-fields` with
trailing spaces yields the field `content-type` mapped to
`application/warc-fields` with no surrounding whitespace, identically for
newline-terminated and CRLF-terminated input. -/
theorem claim_C8 :
    (∀ (m : FieldMap) (line rest : Str), '\n' ∉ line →
      (split line ':').1 ≠ [] → (split line ':').2 ≠ [] →
      read_fields ⟨line ++ '\n' :: '\n' :: rest, false, false⟩ m
        = FieldsResult.ok ⟨rest, false, false⟩
            (fmInsert m ((trim (split line ':').1).map tolowerC)
              (trim (split line ':').2))) ∧
    read_fields ⟨ctLFInput, false, false⟩ []
      = FieldsResult.ok ⟨[], false, false⟩
          [("content-type".data, "application/warc-fields".data)] ∧
    read_fields ⟨ctCRLFInput, false, false⟩ []
      = FieldsResult.ok ⟨[], false, false⟩
          [("content-type".data, "application/warc-fields".data)] :=
  ⟨fun m line rest hnl h1 h2 => read_fields_accept_line m line rest hnl h1 h2,
   rfl, rfl⟩

/-- Claim C8, witness: the general storage clause applied to the line
`Content-Type  : application/warc-fields` with trailing whitespace. -/
theorem claim_C8_witness :
    read_fields ⟨"Content-Type  : application/warc-fields   ".data ++
        '\n' :: '\n' :: [], false, false⟩ []
      = FieldsResult.ok ⟨[], false, false⟩
          (fmInsert []
            ((trim (split "Content-Type  : application/warc-fields   ".data ':').1).map
              tolowerC)
            (trim (split "Content-Type  : application/warc-fields   ".data ':').2)) :=
  claim_C8.1 [] "Content-Type  : application/warc-fields   ".data []
    (by decide) (by decide) (by decide)

/-- Claim C9, counterexample: `read_subsequent_record` does not terminate on
every finite input stream.  On `WARC/1.0\na: b` — a finite stream whose
header's last field line sits at end of input without a trailing newline —
the version line is found, the field line `a: b` is read (setting
`eofbit`), and the next `getline` in `detail::read_fields` fails its sentry
and leaves the line buffer unchanged, so the field loop repeats the
identical iteration forever (modelled as the explicit `diverge` result). -/
theorem claim_C9_counterexample :
    (read_subsequent_record ⟨unterminatedFieldInput, false, false⟩).1 = RRes.diverge := rfl

/-- Claim C9, amended: the version-skipping loop of
`read_subsequent_record` itself terminates on every finite input stream
whose `failbit` is not already set: with fuel exceeding the number of
newlines remaining (each iteration that repeats has consumed one line, so
the loop runs at most one more iteration than the number of remaining
lines), the loop neither exhausts its fuel nor loops forever, and in
particular the fuel `read_subsequent_record` passes suffices;
`read_subsequent_record` as a whole can still fail to terminate inside the
field-parsing phase. -/
theorem claim_C9 (fuel : Nat) (s : IStream)
    (hc : s.data.count '\n' < fuel) (hfb : s.failbit = false) :
    (skip_version fuel s ≠ SkipRes.noFuel ∧ skip_version fuel s ≠ SkipRes.diverge) ∧
    (skip_version (s.data.length + 1) s ≠ SkipRes.noFuel ∧
     skip_version (s.data.length + 1) s ≠ SkipRes.diverge) :=
  ⟨skip_version_term fuel s hc hfb,
   skip_version_term (s.data.length + 1) s
     (by have := List.count_le_length '\n' s.data; omega) hfb⟩

/-- Claim C9, witness: the amended theorem applied to the exhausted empty
stream. -/
theorem claim_C9_witness :
    (skip_version 1 ⟨[], false, false⟩ ≠ SkipRes.noFuel ∧
     skip_version 1 ⟨[], false, false⟩ ≠ SkipRes.diverge) ∧
    (skip_version (([] : Str).length + 1) ⟨[], false, false⟩ ≠ SkipRes.noFuel ∧
     skip_version (([] : Str).length + 1) ⟨[], false, false⟩ ≠ SkipRes.diverge) :=
  claim_C9 1 ⟨[], false, false⟩ (by decide) rfl

/-- Claim C10: every `Record` returned as a success value by `read_record`
or `read_subsequent_record` stores only lower-case field keys
(lower-casing each key is the identity), and the `has` and `field`
accessors are exact lookups on those stored keys: querying any name
containing an upper-case letter (code 65-90) yields `false` respectively
`none`, even though such names match case-insensitively during parsing. -/
theorem claim_C10 (s s' : IStream) (r : Record)
    (h : read_record s = (RRes.ok r, s') ∨ read_subsequent_record s = (RRes.ok r, s')) :
    (∀ p ∈ r.fields, p.1.map tolowerC = p.1) ∧
    (∀ name : Str, (∃ ch ∈ name, 65 ≤ ch.toNat ∧ ch.toNat ≤ 90) →
      r.has name = false ∧ r.field name = none) := by
  have hkeys : ∀ p ∈ r.fields, p.1.map tolowerC = p.1 := by
    rcases h with h | h
    · obtain ⟨ver, hp⟩ := read_record_inv s _ s' h (fun line => by simp)
      obtain ⟨s1, m, hf, hfm, -, -⟩ := parse_ok_inv ver _ s' r hp
      rw [hfm]
      exact read_fields_keys _ _ _ hf
    · obtain ⟨ver, s1, hp⟩ := read_subsequent_inv s _ s' h (by simp) (by simp) (by simp)
      obtain ⟨s2, m, hf, hfm, -, -⟩ := parse_ok_inv ver s1 s' r hp
      rw [hfm]
      exact read_fields_keys _ _ _ hf
  refine ⟨hkeys, ?_⟩
  intro name hup
  have hnone : fmFind r.fields name = none := fmFind_none_of_upper _ _ hkeys hup
  constructor
  · unfold Record.has
    rw [hnone]
    rfl
  · unfold Record.field
    exact hnone

/-- Claim C10, witness: the record parsed from the small concrete stream —
whose header was written `warc-type` in lower case already — answers
`false` and `none` to the upper-cased query `WARC-Type`. -/
theorem claim_C10_witness :
    smallRecordParsed.has "WARC-Type".data = false ∧
    smallRecordParsed.field "WARC-Type".data = none :=
  (claim_C10 ⟨smallRecordInput, false, false⟩ ⟨"REST".data, false, false⟩ smallRecordParsed
    (Or.inl (by rfl))).2 "WARC-Type".data (by decide)

end warcpp
